import Mathlib

/-
Shallow embedding of the bra-ket algebra engine in `ket.rs` of the
complex-calculator crate. Basis indices have Rust type `u32`; we model them
as `Nat` and apply `% 2 ^ 32` wherever the Rust code performs `u32`
arithmetic (release-mode wrapping semantics). The scalar type `T` is kept
generic, mirroring the trait bounds of the Rust impls; no algebraic laws
beyond what the code itself relies on are assumed. The `HashMap` used by
the merge-and-cancel steps is modelled as an insertion-ordered association
list, a deterministic refinement of the unspecified `HashMap` iteration
order (the claims about those steps are stated order-insensitively, via a
lookup function together with key distinctness).
-/

namespace QC

/-- Modulus of the Rust `u32` index type. -/
def U32 : Nat := 2 ^ 32

/-- Wrapping of a `Nat` into the `u32` range. -/
def u32wrap (x : Nat) : Nat := x % U32

/-- Mirror of the Rust struct `UnitKetBra`: a coefficient-free basis slot of
an operator term, used as merge-map key. -/
structure UnitKetBra where
  ket : Nat
  bra : Nat
  n : Nat
  deriving DecidableEq, Repr

/-- Mirror of the Rust struct `KetBra<T>`: the term `scalar · |ket⟩⟨bra|`. -/
structure KetBra (T : Type) where
  scalar : T
  ket : Nat
  bra : Nat
  n : Nat
  deriving DecidableEq, Repr

/-- Mirror of the Rust struct `UnitKet`: a coefficient-free basis slot of a
state term, used as merge-map key. -/
structure UnitKet where
  ket : Nat
  n : Nat
  deriving DecidableEq, Repr

/-- Mirror of the Rust struct `Ket<T>`: the term `scalar · |ket⟩`. -/
structure Ket (T : Type) where
  scalar : T
  ket : Nat
  n : Nat
  deriving DecidableEq, Repr

/-- Mirror of the Rust struct `Operator<T>`: overall scalar and term list. -/
structure Operator (T : Type) where
  scalar : T
  ones : List (KetBra T)
  deriving DecidableEq, Repr

/-- Mirror of the Rust struct `State<T>`: overall scalar and term list. -/
structure State (T : Type) where
  scalar : T
  superpositions : List (Ket T)
  deriving DecidableEq, Repr

variable {T : Type}

/-- Embedding of `KetBra::tensor` (ket.rs lines 40-48). The Rust source
computes `self.ket * 2u32.pow(other.n) + other.ket` (and likewise for `bra`)
and `self.n + other.n` in `u32` arithmetic, so every operation wraps
modulo `2 ^ 32`. -/
def KetBra.tensor [Mul T] (a b : KetBra T) : KetBra T where
  scalar := a.scalar * b.scalar
  ket := u32wrap (u32wrap (a.ket * u32wrap (2 ^ b.n)) + b.ket)
  bra := u32wrap (u32wrap (a.bra * u32wrap (2 ^ b.n)) + b.bra)
  n := u32wrap (a.n + b.n)

/-- Evaluation lemma: when no `u32` overflow occurs, `KetBra.tensor`
produces exactly the bit-concatenation formulas. -/
lemma tensor_eval [Mul T] (a b : KetBra T) (h1 : b.n < 32)
    (h2 : a.ket * 2 ^ b.n + b.ket < 2 ^ 32)
    (h3 : a.bra * 2 ^ b.n + b.bra < 2 ^ 32)
    (h4 : a.n + b.n < 2 ^ 32) :
    KetBra.tensor a b =
      ⟨a.scalar * b.scalar, a.ket * 2 ^ b.n + b.ket, a.bra * 2 ^ b.n + b.bra,
        a.n + b.n⟩ := by
  have hp : (2 : Nat) ^ b.n < 2 ^ 32 := Nat.pow_lt_pow_right (by norm_num) h1
  have hk1 : a.ket * 2 ^ b.n < 2 ^ 32 := by omega
  have hb1 : a.bra * 2 ^ b.n < 2 ^ 32 := by omega
  simp only [KetBra.tensor, u32wrap, U32]
  rw [Nat.mod_eq_of_lt hp, Nat.mod_eq_of_lt hk1, Nat.mod_eq_of_lt h2,
    Nat.mod_eq_of_lt hb1, Nat.mod_eq_of_lt h3, Nat.mod_eq_of_lt h4]

/-- Bit concatenation stays below the combined power of two. -/
lemma concat_lt {x y m n : Nat} (hx : x < 2 ^ m) (hy : y < 2 ^ n) :
    x * 2 ^ n + y < 2 ^ (m + n) := by
  calc x * 2 ^ n + y < x * 2 ^ n + 2 ^ n := by omega
    _ = (x + 1) * 2 ^ n := by ring
    _ ≤ 2 ^ m * 2 ^ n := Nat.mul_le_mul_right _ (by omega)
    _ = 2 ^ (m + n) := (pow_add 2 m n).symm

/-- Claim C3 counterexample: with `b.n = 32`, the `u32` power `2u32.pow(32)`
wraps to `0`, so the produced ket index is `0`, not `ket1 * 2 ^ n2 + ket2`
as the claim states for every pair of input terms. -/
theorem tensor_overflow_cex :
    ¬ ((KetBra.tensor ⟨(1 : Int), 1, 0, 1⟩ ⟨(1 : Int), 0, 0, 32⟩).ket =
        1 * 2 ^ 32 + 0) := by decide

/-- Claim C3 (amended): for every pair of input terms whose combined indices
and power `2 ^ n2` fit in the 32-bit index type — in particular for indices
equal to 0 — the basis-term tensor product returns the term with coefficient
the product of the coefficients, ket index `ket1 * 2 ^ n2 + ket2`, bra index
`bra1 * 2 ^ n2 + bra2`, and qubit count `n1 + n2`. -/
theorem tensor_formula [Mul T] (a b : KetBra T) (h1 : b.n < 32)
    (h2 : a.ket * 2 ^ b.n + b.ket < 2 ^ 32)
    (h3 : a.bra * 2 ^ b.n + b.bra < 2 ^ 32)
    (h4 : a.n + b.n < 2 ^ 32) :
    KetBra.tensor a b =
      ⟨a.scalar * b.scalar, a.ket * 2 ^ b.n + b.ket, a.bra * 2 ^ b.n + b.bra,
        a.n + b.n⟩ :=
  tensor_eval a b h1 h2 h3 h4

/-- Witness for C3 (amended): a concrete pair, including a zero index. -/
theorem tensor_formula_witness :
    KetBra.tensor ⟨(1 : Int), 1, 0, 1⟩ ⟨(1 : Int), 1, 1, 1⟩ =
      ⟨(1 : Int), 3, 1, 2⟩ := by
  have h := tensor_formula (⟨(1 : Int), 1, 0, 1⟩ : KetBra Int)
    ⟨(1 : Int), 1, 1, 1⟩ (by decide) (by decide) (by decide) (by decide)
  rw [h]; rfl

/-- Claim C10: the basis-term tensor product preserves the basis-index
invariant: if `ket1, bra1 < 2 ^ n1`, `ket2, bra2 < 2 ^ n2`, the power
`2 ^ n2` fits in the 32-bit index type, and `n1 + n2 ≤ 32` (so the combined
indices fit as well), then the result has qubit count `n1 + n2` and its ket
and bra indices are below `2 ^ (n1 + n2)`. -/
theorem tensor_invariant [Mul T] (a b : KetBra T)
    (hka : a.ket < 2 ^ a.n) (hba : a.bra < 2 ^ a.n)
    (hkb : b.ket < 2 ^ b.n) (hbb : b.bra < 2 ^ b.n)
    (hn2 : 2 ^ b.n < 2 ^ 32) (hsum : a.n + b.n ≤ 32) :
    (KetBra.tensor a b).n = a.n + b.n ∧
    (KetBra.tensor a b).ket < 2 ^ (a.n + b.n) ∧
    (KetBra.tensor a b).bra < 2 ^ (a.n + b.n) := by
  have hn : b.n < 32 := by
    by_contra h
    exact absurd hn2 (not_lt.mpr (Nat.pow_le_pow_right (by norm_num) (by omega)))
  have hk : a.ket * 2 ^ b.n + b.ket < 2 ^ (a.n + b.n) := concat_lt hka hkb
  have hb : a.bra * 2 ^ b.n + b.bra < 2 ^ (a.n + b.n) := concat_lt hba hbb
  have hle : (2 : Nat) ^ (a.n + b.n) ≤ 2 ^ 32 :=
    Nat.pow_le_pow_right (by norm_num) hsum
  rw [tensor_eval a b hn (by omega) (by omega) (by omega)]
  exact ⟨rfl, hk, hb⟩

/-! ### The merge-and-cancel accumulator

The Rust composition, addition and application routines all build a
`HashMap<key, T>` by repeated `*map.entry(k).or_insert(T::zero()) += v`
and finally filter out zero coefficients. We model the map as an
insertion-ordered association list. -/

variable {K : Type} [DecidableEq K]

/-- Model of one `*map.entry(k).or_insert(T::zero()) += v` step. -/
def addEntry [Add T] [Zero T] : List (K × T) → K → T → List (K × T)
  | [], k, v => [(k, (0 : T) + v)]
  | kv :: rest, k, v =>
    if kv.1 = k then (kv.1, kv.2 + v) :: rest else kv :: addEntry rest k v

/-- Map lookup on the association-list model. -/
def lookupKey : List (K × T) → K → Option T
  | [], _ => none
  | kv :: rest, k => if kv.1 = k then some kv.2 else lookupKey rest k

/-- The keys of the association list, in order. -/
def keysOf (m : List (K × T)) : List K := m.map Prod.fst

omit [DecidableEq K] in
lemma keysOf_nil : keysOf ([] : List (K × T)) = [] := rfl

omit [DecidableEq K] in
lemma keysOf_cons (kv : K × T) (rest : List (K × T)) :
    keysOf (kv :: rest) = kv.1 :: keysOf rest := rfl

/-- Folding a whole contribution list into an initially empty map. -/
def accumulate [Add T] [Zero T] (contribs : List (K × T)) : List (K × T) :=
  contribs.foldl (fun m kv => addEntry m kv.1 kv.2) []

/-- The coefficient accumulated for key `k` starting from `init`, adding the
contributions carrying key `k` in list order. -/
def accCoeff [Add T] [Zero T] (contribs : List (K × T)) (k : K) (init : T) : T :=
  contribs.foldl (fun acc kv => if kv.1 = k then acc + kv.2 else acc) init

/-- The total coefficient accumulated for key `k`. -/
def keyCoeff [Add T] [Zero T] (contribs : List (K × T)) (k : K) : T :=
  accCoeff contribs k 0

lemma lookupKey_addEntry [Add T] [Zero T] (m : List (K × T)) (k0 : K) (v0 : T)
    (k : K) :
    lookupKey (addEntry m k0 v0) k =
      if k0 = k then some ((lookupKey m k0).getD 0 + v0) else lookupKey m k := by
  induction m with
  | nil => by_cases h : k0 = k <;> simp [addEntry, lookupKey, h]
  | cons kv rest ih =>
    by_cases h1 : kv.1 = k0
    · subst h1
      by_cases h2 : kv.1 = k <;> simp [addEntry, lookupKey, h2]
    · by_cases h2 : kv.1 = k
      · subst h2
        have h3 : ¬ k0 = kv.1 := fun h => h1 h.symm
        simp [addEntry, lookupKey, h1, h3]
      · simp [addEntry, lookupKey, h1, h2, ih]

lemma mem_keysOf_iff_lookupKey (m : List (K × T)) (k : K) :
    k ∈ keysOf m ↔ (lookupKey m k).isSome := by
  induction m with
  | nil => simp [keysOf, lookupKey]
  | cons kv rest ih =>
    by_cases h : kv.1 = k
    · simp [keysOf_cons, lookupKey, h]
    · have h2 : ¬ k = kv.1 := fun e => h e.symm
      simp [keysOf_cons, lookupKey, h, h2, ih]

lemma accCoeff_of_not_mem [Add T] [Zero T] (contribs : List (K × T)) (k : K)
    (init : T) (h : k ∉ keysOf contribs) : accCoeff contribs k init = init := by
  induction contribs generalizing init with
  | nil => rfl
  | cons kv rest ih =>
    simp only [keysOf, List.map_cons, List.mem_cons, not_or] at h
    have h1 : ¬ kv.1 = k := fun e => h.1 e.symm
    simpa [accCoeff, List.foldl_cons, h1] using ih _ h.2

lemma keyCoeff_of_not_mem [Add T] [Zero T] (contribs : List (K × T)) (k : K)
    (h : k ∉ keysOf contribs) : keyCoeff contribs k = 0 :=
  accCoeff_of_not_mem contribs k 0 h

lemma lookupKey_foldl [Add T] [Zero T] (contribs : List (K × T))
    (m : List (K × T)) (k : K) :
    lookupKey (contribs.foldl (fun acc kv => addEntry acc kv.1 kv.2) m) k =
      match lookupKey m k with
      | some v => some (accCoeff contribs k v)
      | none =>
        if k ∈ keysOf contribs then some (keyCoeff contribs k) else none := by
  induction contribs generalizing m with
  | nil => cases h : lookupKey m k <;> simp [h, accCoeff, keyCoeff, keysOf_nil]
  | cons kv rest ih =>
    simp only [List.foldl_cons]
    rw [ih]
    rw [lookupKey_addEntry]
    by_cases hk : kv.1 = k
    · cases h : lookupKey m k <;>
        simp [hk, h, accCoeff, keyCoeff, keysOf_cons, List.foldl_cons,
          List.mem_cons]
    · have hk2 : ¬ k = kv.1 := fun e => hk e.symm
      cases h : lookupKey m k <;>
        simp [hk, hk2, h, accCoeff, keyCoeff, keysOf_cons, List.foldl_cons,
          List.mem_cons]

lemma lookupKey_accumulate [Add T] [Zero T] (contribs : List (K × T)) (k : K) :
    lookupKey (accumulate contribs) k =
      if k ∈ keysOf contribs then some (keyCoeff contribs k) else none := by
  have h := lookupKey_foldl contribs ([] : List (K × T)) k
  simpa [accumulate, lookupKey] using h

lemma keysOf_addEntry [Add T] [Zero T] (m : List (K × T)) (k : K) (v : T) :
    keysOf (addEntry m k v) =
      if k ∈ keysOf m then keysOf m else keysOf m ++ [k] := by
  induction m with
  | nil => simp [addEntry, keysOf_nil, keysOf_cons]
  | cons kv rest ih =>
    by_cases h : kv.1 = k
    · subst h
      simp [addEntry, keysOf_cons, List.mem_cons]
    · have h2 : ¬ k = kv.1 := fun e => h e.symm
      simp only [addEntry, h, if_false, keysOf_cons, ih, List.mem_cons, h2,
        false_or]
      by_cases h3 : k ∈ keysOf rest <;> simp [h3]

lemma nodup_keysOf_addEntry [Add T] [Zero T] (m : List (K × T)) (k : K) (v : T)
    (h : (keysOf m).Nodup) : (keysOf (addEntry m k v)).Nodup := by
  rw [keysOf_addEntry]
  by_cases hk : k ∈ keysOf m
  · simpa [hk] using h
  · simp only [hk, if_false]
    rw [List.nodup_append]
    refine ⟨h, List.nodup_singleton k, ?_⟩
    intro a ha hb
    rw [List.mem_singleton] at hb
    subst hb
    exact hk ha

lemma nodup_keysOf_accumulate [Add T] [Zero T] (contribs : List (K × T)) :
    (keysOf (accumulate contribs)).Nodup := by
  suffices h : ∀ m : List (K × T), (keysOf m).Nodup →
      (keysOf (contribs.foldl (fun acc kv => addEntry acc kv.1 kv.2) m)).Nodup by
    exact h [] (by simp [keysOf])
  induction contribs with
  | nil => intro m hm; exact hm
  | cons kv rest ih =>
    intro m hm
    exact ih _ (nodup_keysOf_addEntry _ _ _ hm)

lemma mem_keysOf_accumulate [Add T] [Zero T] (contribs : List (K × T)) (k : K)
    (h : k ∈ keysOf (accumulate contribs)) : k ∈ keysOf contribs := by
  rw [mem_keysOf_iff_lookupKey, lookupKey_accumulate] at h
  by_cases hk : k ∈ keysOf contribs
  · exact hk
  · simp [hk] at h

/-! ### Rebuilding term lists from the accumulator

The Rust code finishes each merge with
`.filter(|(_, scalar)| *scalar != T::zero()).map(...)`, rebuilding `KetBra`
(resp. `Ket`) terms from the surviving map entries. -/

/-- The coefficient-free basis slot of an operator term. -/
def KetBra.unitKey (kb : KetBra T) : UnitKetBra := ⟨kb.ket, kb.bra, kb.n⟩

/-- The coefficient-free basis slot of a state term. -/
def Ket.unitKey (k : Ket T) : UnitKet := ⟨k.ket, k.n⟩

/-- Drop zero entries and rebuild `KetBra` terms (ket.rs lines 112-121). -/
def simplifyKB [Zero T] [DecidableEq T] (m : List (UnitKetBra × T)) :
    List (KetBra T) :=
  (m.filter (fun kv => !decide (kv.2 = 0))).map
    (fun kv => KetBra.mk kv.2 kv.1.ket kv.1.bra kv.1.n)

/-- Drop zero entries and rebuild `Ket` terms (ket.rs lines 186-194). -/
def simplifyKet [Zero T] [DecidableEq T] (m : List (UnitKet × T)) :
    List (Ket T) :=
  (m.filter (fun kv => !decide (kv.2 = 0))).map
    (fun kv => Ket.mk kv.2 kv.1.ket kv.1.n)

/-- Coefficient stored in a `KetBra` term list at a given basis slot. -/
def onesCoeff (l : List (KetBra T)) (u : UnitKetBra) : Option T :=
  (l.find? (fun kb => decide (KetBra.unitKey kb = u))).map KetBra.scalar

/-- Coefficient stored in a `Ket` term list at a given basis slot. -/
def posCoeff (l : List (Ket T)) (u : UnitKet) : Option T :=
  (l.find? (fun k => decide (Ket.unitKey k = u))).map Ket.scalar

lemma unitKey_mk (v : T) (u : UnitKetBra) :
    KetBra.unitKey (KetBra.mk v u.ket u.bra u.n) = u := rfl

lemma unitKeyKet_mk (v : T) (u : UnitKet) :
    Ket.unitKey (Ket.mk v u.ket u.n) = u := rfl

lemma simplifyKB_cons [Zero T] [DecidableEq T] (kv : UnitKetBra × T)
    (rest : List (UnitKetBra × T)) :
    simplifyKB (kv :: rest) =
      if kv.2 = 0 then simplifyKB rest
      else KetBra.mk kv.2 kv.1.ket kv.1.bra kv.1.n :: simplifyKB rest := by
  by_cases h : kv.2 = 0 <;> simp [simplifyKB, List.filter_cons, h]

lemma onesCoeff_cons (kb : KetBra T) (l : List (KetBra T)) (u : UnitKetBra) :
    onesCoeff (kb :: l) u =
      if KetBra.unitKey kb = u then some kb.scalar else onesCoeff l u := by
  by_cases h : KetBra.unitKey kb = u <;> simp [onesCoeff, List.find?_cons, h]

lemma onesCoeff_simplifyKB [Zero T] [DecidableEq T] (m : List (UnitKetBra × T))
    (hnd : (keysOf m).Nodup) (u : UnitKetBra) :
    onesCoeff (simplifyKB m) u =
      match lookupKey m u with
      | some v => if v = 0 then none else some v
      | none => none := by
  induction m with
  | nil => rfl
  | cons kv rest ih =>
    simp only [keysOf_cons, List.nodup_cons] at hnd
    rw [simplifyKB_cons]
    by_cases hz : kv.2 = 0
    · rw [if_pos hz, ih hnd.2]
      by_cases hu : kv.1 = u
      · subst hu
        have hnone : lookupKey rest kv.1 = none := by
          cases h : lookupKey rest kv.1 with
          | none => rfl
          | some v =>
            exact absurd ((mem_keysOf_iff_lookupKey rest kv.1).mpr (by simp [h]))
              hnd.1
        simp [lookupKey, hnone, hz]
      · simp [lookupKey, hu]
    · rw [if_neg hz, onesCoeff_cons]
      by_cases hu : kv.1 = u
      · subst hu
        simp [unitKey_mk, lookupKey, hz]
      · have hu2 : ¬ (KetBra.unitKey (KetBra.mk kv.2 kv.1.ket kv.1.bra kv.1.n) = u) := by
          rw [unitKey_mk]; exact hu
        rw [if_neg hu2, ih hnd.2]
        simp [lookupKey, hu]

lemma simplifyKet_cons [Zero T] [DecidableEq T] (kv : UnitKet × T)
    (rest : List (UnitKet × T)) :
    simplifyKet (kv :: rest) =
      if kv.2 = 0 then simplifyKet rest
      else Ket.mk kv.2 kv.1.ket kv.1.n :: simplifyKet rest := by
  by_cases h : kv.2 = 0 <;> simp [simplifyKet, List.filter_cons, h]

lemma posCoeff_cons (k : Ket T) (l : List (Ket T)) (u : UnitKet) :
    posCoeff (k :: l) u =
      if Ket.unitKey k = u then some k.scalar else posCoeff l u := by
  by_cases h : Ket.unitKey k = u <;> simp [posCoeff, List.find?_cons, h]

lemma posCoeff_simplifyKet [Zero T] [DecidableEq T] (m : List (UnitKet × T))
    (hnd : (keysOf m).Nodup) (u : UnitKet) :
    posCoeff (simplifyKet m) u =
      match lookupKey m u with
      | some v => if v = 0 then none else some v
      | none => none := by
  induction m with
  | nil => rfl
  | cons kv rest ih =>
    simp only [keysOf_cons, List.nodup_cons] at hnd
    rw [simplifyKet_cons]
    by_cases hz : kv.2 = 0
    · rw [if_pos hz, ih hnd.2]
      by_cases hu : kv.1 = u
      · subst hu
        have hnone : lookupKey rest kv.1 = none := by
          cases h : lookupKey rest kv.1 with
          | none => rfl
          | some v =>
            exact absurd ((mem_keysOf_iff_lookupKey rest kv.1).mpr (by simp [h]))
              hnd.1
        simp [lookupKey, hnone, hz]
      · simp [lookupKey, hu]
    · rw [if_neg hz, posCoeff_cons]
      by_cases hu : kv.1 = u
      · subst hu
        simp [unitKeyKet_mk, lookupKey, hz]
      · have hu2 : ¬ (Ket.unitKey (Ket.mk kv.2 kv.1.ket kv.1.n) = u) := by
          rw [unitKeyKet_mk]; exact hu
        rw [if_neg hu2, ih hnd.2]
        simp [lookupKey, hu]

lemma nodup_unitKeys_simplifyKB [Zero T] [DecidableEq T]
    (m : List (UnitKetBra × T)) (h : (keysOf m).Nodup) :
    ((simplifyKB m).map KetBra.unitKey).Nodup := by
  have he : (simplifyKB m).map KetBra.unitKey =
      keysOf (m.filter (fun kv => !decide (kv.2 = 0))) := by
    simp only [simplifyKB, keysOf, List.map_map]
    rfl
  rw [he]
  exact ((List.filter_sublist m).map Prod.fst).nodup h

lemma nodup_unitKeys_simplifyKet [Zero T] [DecidableEq T]
    (m : List (UnitKet × T)) (h : (keysOf m).Nodup) :
    ((simplifyKet m).map Ket.unitKey).Nodup := by
  have he : (simplifyKet m).map Ket.unitKey =
      keysOf (m.filter (fun kv => !decide (kv.2 = 0))) := by
    simp only [simplifyKet, keysOf, List.map_map]
    rfl
  rw [he]
  exact ((List.filter_sublist m).map Prod.fst).nodup h

/-! ### Operator composition (ket.rs lines 91-123) -/

/-- The contributions generated by the nested loops of `Operator * Operator`:
for every term of the left operand and every term of the right operand with
`kb.bra == other_kb.ket`, the pair contributes `kb.scalar * other_kb.scalar`
at the unit key `(kb.ket, other_kb.bra, kb.n)`. -/
def mulContribs [Mul T] (A B : Operator T) : List (UnitKetBra × T) :=
  A.ones.flatMap (fun kb =>
    B.ones.filterMap (fun okb =>
      if kb.bra = okb.ket then
        some (⟨kb.ket, okb.bra, kb.n⟩, kb.scalar * okb.scalar)
      else none))

/-- Embedding of `impl Mul<Operator<T>> for Operator<T>` (ket.rs 91-123):
nested loops accumulate into the map, then zero entries are filtered out
and the surviving entries are rebuilt into `KetBra` terms. -/
def opMul [Mul T] [Add T] [Zero T] [DecidableEq T] (A B : Operator T) :
    Operator T :=
  let m : List (UnitKetBra × T) :=
    A.ones.foldl (fun acc kb =>
      B.ones.foldl (fun acc2 okb =>
        if kb.bra = okb.ket then
          addEntry acc2 ⟨kb.ket, okb.bra, kb.n⟩ (kb.scalar * okb.scalar)
        else acc2) acc) []
  { scalar := A.scalar * B.scalar, ones := simplifyKB m }

lemma foldl_inner {α : Type} [Add T] [Zero T] (q : α → Prop) [DecidablePred q]
    (key : α → K) (val : α → T) (l : List α) (m : List (K × T)) :
    l.foldl (fun acc y => if q y then addEntry acc (key y) (val y) else acc) m =
      (l.filterMap (fun y => if q y then some (key y, val y) else none)).foldl
        (fun acc kv => addEntry acc kv.1 kv.2) m := by
  induction l generalizing m with
  | nil => rfl
  | cons y rest ih =>
    by_cases h : q y <;> simp [List.filterMap_cons, List.foldl_cons, h, ih]

lemma foldl_outer {α : Type} [Add T] [Zero T] (g : α → List (K × T))
    (l : List α) (m : List (K × T)) :
    l.foldl (fun acc x => (g x).foldl (fun a kv => addEntry a kv.1 kv.2) acc) m =
      (l.flatMap g).foldl (fun acc kv => addEntry acc kv.1 kv.2) m := by
  induction l generalizing m with
  | nil => rfl
  | cons x rest ih =>
    simp [List.flatMap_cons, List.foldl_append, List.foldl_cons, ih]

lemma opMul_map_eq [Mul T] [Add T] [Zero T] (A B : Operator T) :
    A.ones.foldl (fun acc kb =>
      B.ones.foldl (fun acc2 okb =>
        if kb.bra = okb.ket then
          addEntry acc2 ⟨kb.ket, okb.bra, kb.n⟩ (kb.scalar * okb.scalar)
        else acc2) acc) [] = accumulate (mulContribs A B) := by
  have h : ∀ (kb : KetBra T) (m : List (UnitKetBra × T)),
      B.ones.foldl (fun acc2 okb =>
        if kb.bra = okb.ket then
          addEntry acc2 ⟨kb.ket, okb.bra, kb.n⟩ (kb.scalar * okb.scalar)
        else acc2) m =
      (B.ones.filterMap (fun okb =>
        if kb.bra = okb.ket then
          some ((⟨kb.ket, okb.bra, kb.n⟩ : UnitKetBra), kb.scalar * okb.scalar)
        else none)).foldl (fun acc kv => addEntry acc kv.1 kv.2) m :=
    fun kb m => foldl_inner _ _ _ _ _
  simp only [h]
  rw [accumulate, mulContribs, ← foldl_outer]

lemma opMul_ones [Mul T] [Add T] [Zero T] [DecidableEq T] (A B : Operator T) :
    (opMul A B).ones = simplifyKB (accumulate (mulContribs A B)) := by
  simp only [opMul]
  rw [opMul_map_eq]

/-- Claim C1: operator composition equals the merge-and-cancel algorithm.
The scalar of the result is the product of the two overall scalars; the
result term list carries pairwise distinct basis slots; and the slot
`u` carries coefficient `c` exactly when the sum of the contributions
`kb.scalar * other_kb.scalar` over pairs with `kb.bra = other_kb.ket` and
unit key `(kb.ket, other_kb.bra, kb.n)` equal to `u` is `c` and `c` is not
the additive identity (zero-sum slots are dropped, unreached slots absent). -/
theorem opMul_merge_cancel [Mul T] [Add T] [Zero T] [DecidableEq T]
    (A B : Operator T) :
    (opMul A B).scalar = A.scalar * B.scalar ∧
    ((opMul A B).ones.map KetBra.unitKey).Nodup ∧
    ∀ u : UnitKetBra,
      onesCoeff (opMul A B).ones u =
        if keyCoeff (mulContribs A B) u = 0 then none
        else some (keyCoeff (mulContribs A B) u) := by
  refine ⟨rfl, ?_, ?_⟩
  · rw [opMul_ones]
    exact nodup_unitKeys_simplifyKB _ (nodup_keysOf_accumulate _)
  · intro u
    rw [opMul_ones,
      onesCoeff_simplifyKB _ (nodup_keysOf_accumulate _) u,
      lookupKey_accumulate]
    by_cases hmem : u ∈ keysOf (mulContribs A B)
    · simp [hmem]
    · have hz : keyCoeff (mulContribs A B) u = 0 :=
        keyCoeff_of_not_mem _ _ hmem
      simp [hmem, hz]

/-! ### Operator addition (ket.rs lines 131-158) -/

/-- The contributions of `Operator + Operator`: the term lists of the two
operands are chained, and every term — including those of the right
operand — contributes `kb.scalar * self.scalar`, where `self` is the LEFT
operand, at its own unit key. -/
def addContribs [Mul T] (A B : Operator T) : List (UnitKetBra × T) :=
  (A.ones ++ B.ones).map (fun kb => (KetBra.unitKey kb, kb.scalar * A.scalar))

/-- Embedding of `impl Add<Operator<T>> for Operator<T>` (ket.rs 131-158):
a single loop over the chained term lists accumulates
`kb.scalar * self.scalar` into the map; zero entries are dropped and the
result overall scalar is reset to `T::one()`. -/
def opAdd [Mul T] [Add T] [Zero T] [One T] [DecidableEq T] (A B : Operator T) :
    Operator T :=
  let m : List (UnitKetBra × T) :=
    (A.ones ++ B.ones).foldl (fun acc kb =>
      addEntry acc ⟨kb.ket, kb.bra, kb.n⟩ (kb.scalar * A.scalar)) []
  { scalar := 1, ones := simplifyKB m }

lemma opAdd_ones [Mul T] [Add T] [Zero T] [One T] [DecidableEq T]
    (A B : Operator T) :
    (opAdd A B).ones = simplifyKB (accumulate (addContribs A B)) := by
  simp only [opAdd, accumulate, addContribs, List.foldl_map]
  rfl

/-- Claim C2: operator addition accumulates, for every term of the chained
lists of `A` and `B`, the value `term.scalar * A.scalar` — the left overall
scalar is folded into the terms coming from `B` as well, and the overall
scalar of the result is reset to the multiplicative identity; zero slots
are dropped. -/
theorem opAdd_merge_cancel [Mul T] [Add T] [Zero T] [One T] [DecidableEq T]
    (A B : Operator T) :
    (opAdd A B).scalar = 1 ∧
    ((opAdd A B).ones.map KetBra.unitKey).Nodup ∧
    ∀ u : UnitKetBra,
      onesCoeff (opAdd A B).ones u =
        if keyCoeff (addContribs A B) u = 0 then none
        else some (keyCoeff (addContribs A B) u) := by
  refine ⟨rfl, ?_, ?_⟩
  · rw [opAdd_ones]
    exact nodup_unitKeys_simplifyKB _ (nodup_keysOf_accumulate _)
  · intro u
    rw [opAdd_ones,
      onesCoeff_simplifyKB _ (nodup_keysOf_accumulate _) u,
      lookupKey_accumulate]
    by_cases hmem : u ∈ keysOf (addContribs A B)
    · simp [hmem]
    · have hz : keyCoeff (addContribs A B) u = 0 :=
        keyCoeff_of_not_mem _ _ hmem
      simp [hmem, hz]

/-! ### Operator applied to a state (ket.rs lines 166-196) -/

/-- The contributions of `Operator * State`: every operator term and every
state term with `kb.bra == pos.ket` contribute `kb.scalar * pos.scalar` at
the unit key `(kb.ket, kb.n)`. -/
def applyContribs [Mul T] (A : Operator T) (s : State T) :
    List (UnitKet × T) :=
  A.ones.flatMap (fun kb =>
    s.superpositions.filterMap (fun pos =>
      if kb.bra = pos.ket then
        some (⟨kb.ket, kb.n⟩, kb.scalar * pos.scalar)
      else none))

/-- Embedding of `impl Mul<State<T>> for Operator<T>` (ket.rs 166-196). -/
def opApply [Mul T] [Add T] [Zero T] [DecidableEq T] (A : Operator T)
    (s : State T) : State T :=
  let m : List (UnitKet × T) :=
    A.ones.foldl (fun acc kb =>
      s.superpositions.foldl (fun acc2 pos =>
        if kb.bra = pos.ket then
          addEntry acc2 ⟨kb.ket, kb.n⟩ (kb.scalar * pos.scalar)
        else acc2) acc) []
  { scalar := A.scalar * s.scalar, superpositions := simplifyKet m }

lemma opApply_map_eq [Mul T] [Add T] [Zero T] (A : Operator T) (s : State T) :
    A.ones.foldl (fun acc kb =>
      s.superpositions.foldl (fun acc2 pos =>
        if kb.bra = pos.ket then
          addEntry acc2 ⟨kb.ket, kb.n⟩ (kb.scalar * pos.scalar)
        else acc2) acc) [] = accumulate (applyContribs A s) := by
  have h : ∀ (kb : KetBra T) (m : List (UnitKet × T)),
      s.superpositions.foldl (fun acc2 pos =>
        if kb.bra = pos.ket then
          addEntry acc2 ⟨kb.ket, kb.n⟩ (kb.scalar * pos.scalar)
        else acc2) m =
      (s.superpositions.filterMap (fun pos =>
        if kb.bra = pos.ket then
          some ((⟨kb.ket, kb.n⟩ : UnitKet), kb.scalar * pos.scalar)
        else none)).foldl (fun acc kv => addEntry acc kv.1 kv.2) m :=
    fun kb m => foldl_inner _ _ _ _ _
  simp only [h]
  rw [accumulate, applyContribs, ← foldl_outer]

lemma opApply_pos [Mul T] [Add T] [Zero T] [DecidableEq T] (A : Operator T)
    (s : State T) :
    (opApply A s).superpositions =
      simplifyKet (accumulate (applyContribs A s)) := by
  simp only [opApply]
  rw [opApply_map_eq]

/-- Claim C5: applying an operator to a state accumulates, for every
operator term `kb` and state term `pos` with `kb.bra = pos.ket`, the value
`kb.scalar * pos.scalar` at the unit key `(kb.ket, kb.n)`; zero slots are
dropped and the result overall scalar is the product of the two overall
scalars. -/
theorem opApply_merge_cancel [Mul T] [Add T] [Zero T] [DecidableEq T]
    (A : Operator T) (s : State T) :
    (opApply A s).scalar = A.scalar * s.scalar ∧
    ((opApply A s).superpositions.map Ket.unitKey).Nodup ∧
    ∀ u : UnitKet,
      posCoeff (opApply A s).superpositions u =
        if keyCoeff (applyContribs A s) u = 0 then none
        else some (keyCoeff (applyContribs A s) u) := by
  refine ⟨rfl, ?_, ?_⟩
  · rw [opApply_pos]
    exact nodup_unitKeys_simplifyKet _ (nodup_keysOf_accumulate _)
  · intro u
    rw [opApply_pos,
      posCoeff_simplifyKet _ (nodup_keysOf_accumulate _) u,
      lookupKey_accumulate]
    by_cases hmem : u ∈ keysOf (applyContribs A s)
    · simp [hmem]
    · have hz : keyCoeff (applyContribs A s) u = 0 :=
        keyCoeff_of_not_mem _ _ hmem
      simp [hmem, hz]

/-! ### Operator tensor product (ket.rs lines 70-84) -/

/-- Embedding of `Operator::tensor` (ket.rs 70-84): nested loops push the
pairwise term tensor products onto a vector; scalars multiply. -/
def Operator.tensor [Mul T] (A B : Operator T) : Operator T where
  scalar := A.scalar * B.scalar
  ones := A.ones.foldl (fun acc kb =>
    B.ones.foldl (fun acc2 okb => acc2 ++ [KetBra.tensor kb okb]) acc) []

lemma push_inner {α β : Type} (f : α → β) (l : List α) (acc : List β) :
    l.foldl (fun a2 y => a2 ++ [f y]) acc = acc ++ l.map f := by
  induction l generalizing acc with
  | nil => simp
  | cons y rest ih => simp [List.foldl_cons, ih]

lemma push_outer {α γ : Type} (g : α → List γ) (l : List α) (acc : List γ) :
    l.foldl (fun a x => a ++ g x) acc = acc ++ l.flatMap g := by
  induction l generalizing acc with
  | nil => simp
  | cons x rest ih => simp [List.foldl_cons, List.flatMap_cons, ih]

lemma map_len_const {α β γ : Type} (f : α → β → γ) (la : List α)
    (lb : List β) :
    List.map (List.length ∘ fun x => List.map (f x) lb) la =
    List.replicate la.length lb.length := by
  induction la with
  | nil => rfl
  | cons x rest ih =>
    simp only [List.map_cons, List.length_cons, List.replicate_succ,
      Function.comp_apply, List.length_map]
    rw [ih]

/-- Claim C4: the operator tensor product has overall scalar `a * b` and
term list exactly the Cartesian product of the two term lists, each pair
combined by the basis-term tensor product, with the left operand terms
outer and the right operand terms inner; its length is the product of the
lengths and no merging or cancellation occurs. -/
theorem operator_tensor_cartesian [Mul T] (A B : Operator T) :
    (Operator.tensor A B).scalar = A.scalar * B.scalar ∧
    (Operator.tensor A B).ones =
      A.ones.flatMap (fun kb => B.ones.map (fun okb => KetBra.tensor kb okb)) ∧
    (Operator.tensor A B).ones.length = A.ones.length * B.ones.length := by
  have h2 : (Operator.tensor A B).ones =
      A.ones.flatMap (fun kb => B.ones.map (fun okb => KetBra.tensor kb okb)) := by
    show A.ones.foldl _ [] = _
    simp only [push_inner]
    rw [push_outer]
    simp
  refine ⟨rfl, h2, ?_⟩
  rw [h2, List.length_flatMap, map_len_const, List.sum_replicate, smul_eq_mul]

/-! ### Identity construction (ket.rs lines 211-231) -/

/-- Embedding of `Operator::identity` (ket.rs 211-231): regardless of the
requested qubit count `n`, the term list is hardcoded to the two terms
`|0⟩⟨0|` and `|1⟩⟨1|` tagged with `n`. -/
def Operator.identity (T : Type) [One T] (n : Nat) : Operator T where
  scalar := 1
  ones := [⟨1, 0, 0, n⟩, ⟨1, 1, 1, n⟩]

/-- Claim C6: for every requested qubit count `n` — including 0 and values
above 1 — the identity constructor returns overall scalar one and exactly
the two diagonal terms at indices 0 and 1 tagged with `n`; its term count
is the mathematically complete `2 ^ n` only in the coincidental case
`n = 1`. -/
theorem identity_two_terms (T : Type) [One T] (n : Nat) :
    (Operator.identity T n).scalar = 1 ∧
    (Operator.identity T n).ones = [⟨1, 0, 0, n⟩, ⟨1, 1, 1, n⟩] ∧
    (Operator.identity T n).ones.length = 2 ∧
    ((Operator.identity T n).ones.length = 2 ^ n ↔ n = 1) := by
  refine ⟨rfl, rfl, rfl, ?_, ?_⟩
  · intro h
    have h2 : (2 : Nat) ^ 1 = 2 ^ n := by simpa [Operator.identity] using h
    exact (Nat.pow_right_injective (le_refl 2) h2).symm
  · intro h
    subst h
    rfl

/-! ### Scalar scaling and negation (ket.rs lines 199-208 and 50-61) -/

/-- Embedding of `impl Mul<T> for Operator<T>` (ket.rs 199-208): a record
update of the overall scalar, term list carried over unchanged. -/
def opSmul [Mul T] (A : Operator T) (rhs : T) : Operator T :=
  { A with scalar := A.scalar * rhs }

/-- Embedding of `impl Neg for KetBra<T>` (ket.rs 50-61). -/
def KetBra.neg [Neg T] (kb : KetBra T) : KetBra T :=
  { scalar := -kb.scalar, ket := kb.ket, bra := kb.bra, n := kb.n }

/-- Claim C8: multiplying an operator by a raw scalar changes only the
overall scalar, to its product with the given scalar, and leaves the term
list untouched; negating a `KetBra` term negates only its coefficient and
leaves ket, bra and n unchanged. -/
theorem smul_neg_frame [Mul T] [Neg T] (A : Operator T) (c : T)
    (kb : KetBra T) :
    (opSmul A c).scalar = A.scalar * c ∧ (opSmul A c).ones = A.ones ∧
    (KetBra.neg kb).scalar = -kb.scalar ∧ (KetBra.neg kb).ket = kb.ket ∧
    (KetBra.neg kb).bra = kb.bra ∧ (KetBra.neg kb).n = kb.n :=
  ⟨rfl, rfl, rfl, rfl, rfl, rfl⟩

/-! ### Dimension mismatches are not checked (claim C7) -/

lemma mem_simplifyKB [Zero T] [DecidableEq T] {x : KetBra T}
    {m : List (UnitKetBra × T)} (hx : x ∈ simplifyKB m) :
    KetBra.unitKey x ∈ keysOf m := by
  simp only [simplifyKB, List.mem_map, List.mem_filter] at hx
  obtain ⟨kv, ⟨hkv, hnz⟩, hconv⟩ := hx
  subst hconv
  rw [unitKey_mk]
  exact List.mem_map_of_mem Prod.fst hkv

lemma mem_simplifyKet [Zero T] [DecidableEq T] {x : Ket T}
    {m : List (UnitKet × T)} (hx : x ∈ simplifyKet m) :
    Ket.unitKey x ∈ keysOf m := by
  simp only [simplifyKet, List.mem_map, List.mem_filter] at hx
  obtain ⟨kv, ⟨hkv, hnz⟩, hconv⟩ := hx
  subst hconv
  rw [unitKeyKet_mk]
  exact List.mem_map_of_mem Prod.fst hkv

/-- Claim C7: composition, addition and operator-on-state application are
total and perform no dimension validation: every term of any result
originates from operand terms without any constraint tying their qubit
counts together, and a contracted result term carries the LEFT operand
term qubit count `kb.n`. -/
theorem silent_dimension_mismatch [Mul T] [Add T] [Zero T] [One T]
    [DecidableEq T] (A B : Operator T) (s : State T) :
    (∀ x ∈ (opMul A B).ones, ∃ kb ∈ A.ones, ∃ okb ∈ B.ones,
      kb.bra = okb.ket ∧ x.ket = kb.ket ∧ x.bra = okb.bra ∧ x.n = kb.n) ∧
    (∀ x ∈ (opAdd A B).ones, ∃ kb ∈ A.ones ++ B.ones,
      x.ket = kb.ket ∧ x.bra = kb.bra ∧ x.n = kb.n) ∧
    (∀ x ∈ (opApply A s).superpositions, ∃ kb ∈ A.ones,
      ∃ pos ∈ s.superpositions,
        kb.bra = pos.ket ∧ x.ket = kb.ket ∧ x.n = kb.n) := by
  refine ⟨?_, ?_, ?_⟩
  · intro x hx
    rw [opMul_ones] at hx
    have h2 := mem_keysOf_accumulate _ _ (mem_simplifyKB hx)
    obtain ⟨kv, hkv, hfst⟩ := List.mem_map.mp h2
    simp only [mulContribs, List.mem_flatMap, List.mem_filterMap] at hkv
    obtain ⟨kb, hkb, okb, hokb, hif⟩ := hkv
    by_cases hc : kb.bra = okb.ket
    · rw [if_pos hc] at hif
      have hkey : (⟨kb.ket, okb.bra, kb.n⟩ : UnitKetBra) = KetBra.unitKey x :=
        (congrArg Prod.fst (Option.some.inj hif)).trans hfst
      simp only [KetBra.unitKey, UnitKetBra.mk.injEq] at hkey
      exact ⟨kb, hkb, okb, hokb, hc, hkey.1.symm, hkey.2.1.symm, hkey.2.2.symm⟩
    · rw [if_neg hc] at hif
      exact absurd hif (by simp)
  · intro x hx
    rw [opAdd_ones] at hx
    have h2 := mem_keysOf_accumulate _ _ (mem_simplifyKB hx)
    simp only [addContribs, keysOf, List.map_map, List.mem_map] at h2
    obtain ⟨kb, hkb, hkey⟩ := h2
    simp only [Function.comp, KetBra.unitKey, UnitKetBra.mk.injEq] at hkey
    exact ⟨kb, hkb, hkey.1.symm, hkey.2.1.symm, hkey.2.2.symm⟩
  · intro x hx
    rw [opApply_pos] at hx
    have h2 := mem_keysOf_accumulate _ _ (mem_simplifyKet hx)
    obtain ⟨kv, hkv, hfst⟩ := List.mem_map.mp h2
    simp only [applyContribs, List.mem_flatMap, List.mem_filterMap] at hkv
    obtain ⟨kb, hkb, pos, hpos, hif⟩ := hkv
    by_cases hc : kb.bra = pos.ket
    · rw [if_pos hc] at hif
      have hkey : (⟨kb.ket, kb.n⟩ : UnitKet) = Ket.unitKey x :=
        (congrArg Prod.fst (Option.some.inj hif)).trans hfst
      simp only [Ket.unitKey, UnitKet.mk.injEq] at hkey
      exact ⟨kb, hkb, pos, hpos, hc, hkey.1.symm, hkey.2.symm⟩
    · rw [if_neg hc] at hif
      exact absurd hif (by simp)

/-- Witness for C7: composing an operator whose term has qubit count 1 with
one whose term has qubit count 2 silently proceeds, and the surviving term
carries the left term qubit count 1. -/
theorem silent_dimension_mismatch_witness :
    ∃ kb ∈ (⟨1, [⟨(1 : Int), 0, 0, 1⟩]⟩ : Operator Int).ones,
      ∃ okb ∈ (⟨1, [⟨(1 : Int), 0, 0, 2⟩]⟩ : Operator Int).ones,
        kb.bra = okb.ket ∧
        (⟨(1 : Int), 0, 0, 1⟩ : KetBra Int).ket = kb.ket ∧
        (⟨(1 : Int), 0, 0, 1⟩ : KetBra Int).bra = okb.bra ∧
        (⟨(1 : Int), 0, 0, 1⟩ : KetBra Int).n = kb.n :=
  (silent_dimension_mismatch (⟨1, [⟨(1 : Int), 0, 0, 1⟩]⟩ : Operator Int)
      (⟨1, [⟨(1 : Int), 0, 0, 2⟩]⟩ : Operator Int) ⟨1, []⟩).1
    ⟨(1 : Int), 0, 0, 1⟩ (by decide)

/-- Witness for C10: a concrete in-range pair of one-qubit terms. -/
theorem tensor_invariant_witness :
    (KetBra.tensor ⟨(1 : Int), 1, 1, 1⟩ ⟨(1 : Int), 0, 1, 1⟩).n = 1 + 1 ∧
    (KetBra.tensor ⟨(1 : Int), 1, 1, 1⟩ ⟨(1 : Int), 0, 1, 1⟩).ket < 2 ^ (1 + 1) ∧
    (KetBra.tensor ⟨(1 : Int), 1, 1, 1⟩ ⟨(1 : Int), 0, 1, 1⟩).bra < 2 ^ (1 + 1) :=
  tensor_invariant ⟨(1 : Int), 1, 1, 1⟩ ⟨(1 : Int), 0, 1, 1⟩
    (by decide) (by decide) (by decide) (by decide) (by decide) (by decide)

/-! ### Rendering (ket.rs lines 233-295) -/

/-- Binary digit characters of a natural number, as produced by the Rust
binary format specifier (minimal digits; zero prints as a single digit). -/
def natBinChars (x : Nat) : List Char := Nat.toDigits 2 x

/-- Zero left padding to field width `w`, as done by the fill-and-align
specifier `0>` used in ket.rs with width `n`. -/
def padZeros (w : Nat) (cs : List Char) : List Char :=
  List.replicate (w - cs.length) '0' ++ cs

/-- Rendering of one `KetBra` term (ket.rs 273-286): the coefficient is
elided when it equals the multiplicative identity; ket and bra print as
zero-padded binary strings of width `n`. `disp` renders the scalar type. -/
def KetBra.fmt [One T] [DecidableEq T] (disp : T → String) (kb : KetBra T) :
    String :=
  (if kb.scalar = 1 then "" else disp kb.scalar) ++ "|" ++
    String.mk (padZeros kb.n (natBinChars kb.ket)) ++ "⟩⟨" ++
    String.mk (padZeros kb.n (natBinChars kb.bra)) ++ "|"

/-- Rendering of one `Ket` term (ket.rs 288-295). -/
def Ket.fmt [One T] [DecidableEq T] (disp : T → String) (k : Ket T) :
    String :=
  (if k.scalar = 1 then "" else disp k.scalar) ++ "|" ++
    String.mk (padZeros k.n (natBinChars k.ket)) ++ "⟩"

/-- Embedding of `impl Display for Operator<T>` (ket.rs 233-251): the
overall scalar is prefixed and the body parenthesized when the scalar is
not one; the first term is accessed unconditionally (`self.ones[0]`), so an
empty term list has no rendering — modelled as `none`. -/
def Operator.fmt [One T] [DecidableEq T] (disp : T → String)
    (A : Operator T) : Option String :=
  match A.ones with
  | [] => none
  | first :: rest =>
    some ((if A.scalar = 1 then "" else disp A.scalar ++ "(") ++
      rest.foldl (fun acc kb => acc ++ " + " ++ KetBra.fmt disp kb)
        (KetBra.fmt disp first) ++
      (if A.scalar = 1 then "" else ")"))

/-- Embedding of `impl Display for State<T>` (ket.rs 253-271). -/
def State.fmt [One T] [DecidableEq T] (disp : T → String) (s : State T) :
    Option String :=
  match s.superpositions with
  | [] => none
  | first :: rest =>
    some ((if s.scalar = 1 then "" else disp s.scalar ++ "(") ++
      rest.foldl (fun acc k => acc ++ " + " ++ Ket.fmt disp k)
        (Ket.fmt disp first) ++
      (if s.scalar = 1 then "" else ")"))

/-- A list of rendered terms joined with the separator `" + "`. -/
def joinPlus : List String → String
  | [] => ""
  | [s] => s
  | s :: rest => s ++ " + " ++ joinPlus rest

lemma joinPlus_eq_foldl (s : String) (l : List String) :
    joinPlus (s :: l) = l.foldl (fun acc s2 => acc ++ " + " ++ s2) s := by
  induction l generalizing s with
  | nil => rfl
  | cons s2 rest ih =>
    have hstep : joinPlus (s :: s2 :: rest) =
        joinPlus ((s ++ " + " ++ s2) :: rest) := by
      cases rest with
      | nil => rfl
      | cons r rr => simp [joinPlus, String.append_assoc]
    rw [hstep, ih, List.foldl_cons]

/-- Claim C9: rendering requires a non-empty term list. For every operator
and state with at least one term, rendering completes: the overall scalar
is prefixed and the body parenthesized exactly when the scalar differs from
the multiplicative identity, and the rendered terms are joined with
`" + "`. An aggregate with zero terms has no rendering (the unconditional
first-element access is out of bounds), modelled as `none`. -/
theorem display_requires_nonempty [One T] [DecidableEq T]
    (disp : T → String) (A : Operator T) (s : State T) :
    (A.ones ≠ [] →
      Operator.fmt disp A = some
        ((if A.scalar = 1 then "" else disp A.scalar ++ "(") ++
          joinPlus (A.ones.map (KetBra.fmt disp)) ++
          (if A.scalar = 1 then "" else ")"))) ∧
    (A.ones = [] → Operator.fmt disp A = none) ∧
    (s.superpositions ≠ [] →
      State.fmt disp s = some
        ((if s.scalar = 1 then "" else disp s.scalar ++ "(") ++
          joinPlus (s.superpositions.map (Ket.fmt disp)) ++
          (if s.scalar = 1 then "" else ")"))) ∧
    (s.superpositions = [] → State.fmt disp s = none) := by
  refine ⟨?_, ?_, ?_, ?_⟩
  · intro hne
    cases hA : A.ones with
    | nil => exact absurd hA hne
    | cons first rest =>
      simp only [Operator.fmt, hA, List.map_cons, joinPlus_eq_foldl,
        List.foldl_map]
  · intro hA
    simp only [Operator.fmt, hA]
  · intro hne
    cases hs : s.superpositions with
    | nil => exact absurd hs hne
    | cons first rest =>
      simp only [State.fmt, hs, List.map_cons, joinPlus_eq_foldl,
        List.foldl_map]
  · intro hs
    simp only [State.fmt, hs]

/-- Witness for C9: a concrete two-term operator with overall scalar 2 and
a concrete empty state. -/
theorem display_requires_nonempty_witness :
    Operator.fmt (fun v : Int => toString v)
        ⟨2, [⟨1, 0, 0, 1⟩, ⟨1, 1, 1, 1⟩]⟩ =
      some "2(|0⟩⟨0| + |1⟩⟨1|)" ∧
    State.fmt (fun v : Int => toString v) ⟨2, []⟩ = none := by
  constructor
  · have h := (display_requires_nonempty (fun v : Int => toString v)
      (⟨2, [⟨1, 0, 0, 1⟩, ⟨1, 1, 1, 1⟩]⟩ : Operator Int)
      (⟨2, []⟩ : State Int)).1 (by decide)
    rw [h]
    rfl
  · exact (display_requires_nonempty (fun v : Int => toString v)
      (⟨2, [⟨1, 0, 0, 1⟩, ⟨1, 1, 1, 1⟩]⟩ : Operator Int)
      (⟨2, []⟩ : State Int)).2.2.2 rfl

end QC